import Mathlib

/-!
Verification of the schema-migration subsystem
(`backend/migrations/migration_manager.py`).

The Python module is embedded shallowly:

* strings are Lean `String`s, and the Python operations used by the code
  (`str.split` with a maxsplit, `str.strip`, `str.title`, `str.replace`,
  `str.lower`, lexicographic string comparison) are defined below on the
  underlying character lists;
* the database is an explicit `DBState` (existence of the
  `schema_migrations` ledger table, its rows, and the log of migration SQL
  statements that have been committed);
* the transactional SQL executor is a parameter `execOk : String → Bool`
  telling which SQL texts execute successfully, plus a flag `fetchOk` for
  the `SELECT` used by `get_applied_migrations`; a failed statement makes
  its whole transaction roll back, so a failing operation returns
  `Except.error` and the caller keeps its previous state;
* a raised exception that escapes a top-level command is the `Option MigErr`
  component of the result; the database state component persists across it.
-/

namespace MigrationManager

/-- Python string `<=` (lexicographic by code point), as used by
`m.version <= target_version` and by SQL `ORDER BY version` on the
`VARCHAR` version column. -/
def vle (a b : String) : Prop := a.data ≤ b.data

/-- Python string `<` (lexicographic by code point), as used by
`migration.version > target_version`. -/
def vlt (a b : String) : Prop := a.data < b.data

instance vle.decRel : DecidableRel vle := fun a b =>
  inferInstanceAs (Decidable (a.data ≤ b.data))

instance vlt.decRel : DecidableRel vlt := fun a b =>
  inferInstanceAs (Decidable (a.data < b.data))

instance vle.total : IsTotal String vle := ⟨fun a b => le_total a.data b.data⟩

instance vle.trans : IsTrans String vle := ⟨fun _ _ _ h h2 => le_trans h h2⟩

/-- The whitespace characters stripped by Python `str.strip()` (ASCII). -/
def isPySpace (c : Char) : Bool :=
  c = ' ' || c = '\t' || c = '\n' || c = '\r' || c = '\x0b' || c = '\x0c'

/-- Python `str.strip()` on a character list: drop leading and trailing
whitespace. -/
def stripChars (l : List Char) : List Char :=
  ((l.dropWhile isPySpace).reverse.dropWhile isPySpace).reverse

/-- Python `str.strip()`. -/
def pyStrip (s : String) : String := String.mk (stripChars s.data)

/-- Python `str.title()` on ASCII text: uppercase every letter that does
not follow a letter, lowercase every letter that does. -/
def pyTitleAux : Bool → List Char → List Char
  | _, [] => []
  | prevAlpha, c :: cs =>
    (if c.isAlpha then (if prevAlpha then c.toLower else c.toUpper) else c)
      :: pyTitleAux c.isAlpha cs

/-- Python `str.title()`. -/
def pyTitle (s : String) : String := String.mk (pyTitleAux false s.data)

/-- Python `s.replace("_", " ")` (single-character replacement). -/
def underscoresToSpaces (s : String) : String :=
  String.mk (s.data.map fun c => if c = '_' then ' ' else c)

/-- Split a character list at the leftmost occurrence of `sep`:
`some (pre, post)` with the input equal to `pre ++ sep ++ post` and no
occurrence of `sep` starting inside `pre`; `none` when `sep` does not
occur.  This is the splitting performed by Python `s.split(sep, 1)`. -/
def splitFirst (sep : List Char) : List Char → Option (List Char × List Char)
  | [] => if sep.isEmpty then some ([], []) else none
  | c :: cs =>
    if sep.isPrefixOf (c :: cs) then some ([], (c :: cs).drop sep.length)
    else
      match splitFirst sep cs with
      | some (pre, post) => some (c :: pre, post)
      | none => none

/-- Python `filename.split("_", 2)`: at most two splits, at the two
leftmost underscores. -/
def pySplitTwo (s : List Char) : List (List Char) :=
  match splitFirst ['_'] s with
  | none => [s]
  | some (a, r1) =>
    match splitFirst ['_'] r1 with
    | none => [a, r1]
    | some (b, r2) => [a, b, r2]

/-- The literal separator between forward and reverse SQL in a migration
file. -/
def downMarker : String := "-- DOWN"

/-- `Migration`: one versioned schema change, as parsed from a file.  The
`timestamp` attribute (wall-clock construction time, inserted into the
ledger's `applied_at` column) is not modelled: no claim concerns it. -/
structure Migration where
  version : String
  name : String
  up_sql : String
  down_sql : String
deriving Repr, DecidableEq

/-- The content half of `_parse_migration_file`: `content.split("-- DOWN", 1)`
when the marker occurs (`"-- DOWN" in content`), else `(content, "")`. -/
def contentSplit (content : String) : String × String :=
  match splitFirst downMarker.data content.data with
  | some (pre, post) => (String.mk pre, String.mk post)
  | none => (content, "")

/-- `MigrationManager._parse_migration_file`, acting on the filename stem
(`file_path.stem`) and the file content.  The Python function is total on
its inputs: it either returns a `Migration` or `None` (fewer than three
underscore-separated segments in the stem); it raises no exception. -/
def _parse_migration_file (stem content : String) : Option Migration :=
  match pySplitTwo stem.data with
  | [p0, p1, p2] =>
    some ⟨String.mk (p0 ++ '_' :: p1),
          pyTitle (underscoresToSpaces (String.mk p2)),
          pyStrip (contentSplit content).1,
          pyStrip (contentSplit content).2⟩
  | _ => none

/-- Version order on parsed migrations (`key=lambda m: m.version`). -/
def mle (a b : Migration) : Prop := vle a.version b.version

instance mle.decRel : DecidableRel mle := fun a b =>
  inferInstanceAs (Decidable (vle a.version b.version))

instance mle.total : IsTotal Migration mle :=
  ⟨fun a b => le_total a.version.data b.version.data⟩

instance mle.trans : IsTrans Migration mle :=
  ⟨fun _ _ _ h h2 => le_trans h h2⟩

/-- Filename order on directory entries (`sorted(self.migrations_dir.glob("*.sql"))`). -/
def fle (a b : String × String) : Prop := vle a.1 b.1

instance fle.decRel : DecidableRel fle := fun a b =>
  inferInstanceAs (Decidable (vle a.1 b.1))

instance fle.total : IsTotal (String × String) fle :=
  ⟨fun a b => le_total a.1.data b.1.data⟩

instance fle.trans : IsTrans (String × String) fle :=
  ⟨fun _ _ _ h h2 => le_trans h h2⟩

/-- `load_migrations_from_directory`.  The directory is modelled as a list
of `(stem, content)` pairs (every file already matches `*.sql`; the
extension added on disk is stripped again by `Path.stem`).  Files are
enumerated in sorted filename order, unparsable ones are skipped (logged),
and the result is sorted ascending by version. -/
def load_migrations_from_directory (files : List (String × String)) : List Migration :=
  List.insertionSort mle
    ((List.insertionSort fle files).filterMap fun f => _parse_migration_file f.1 f.2)

/-- `create_migration_file`.  The wall-clock version string
(`datetime.utcnow().strftime("%Y%m%d_%H%M%S")`) is the parameter `now`.
Returns the created file as a `(stem, content)` directory entry. -/
def create_migration_file (now name up_sql down_sql : String) : String × String :=
  let stem := now ++ "_" ++
    String.mk ((name.data.map Char.toLower).map fun c => if c = ' ' then '_' else c)
  let content := if down_sql = "" then up_sql
    else up_sql ++ "\n\n" ++ downMarker ++ "\n" ++ down_sql
  (stem, content)

/-- The errors a migration command can raise.  The Python code raises
ordinary exceptions; the cases here are the distinct failure conditions of
the module: ledger-table creation failure, a failing SQL statement
(identified by the migration's version), a primary-key conflict on the
ledger insert, and `ValueError("... has no rollback SQL")`. -/
inductive MigErr where
  | initFailure
  | execFailure (version : String)
  | ledgerConflict (version : String)
  | noRollbackSQL (version : String)
deriving Repr, DecidableEq

/-- The database state: whether the `schema_migrations` ledger table
exists, its rows (`version`, `name`, in insertion order; the `applied_at`
and `checksum` columns are not consulted by any code path), and the log of
migration SQL texts whose transactions have committed, in commit order. -/
structure DBState where
  ledgerTable : Bool
  ledger : List (String × String)
  sqlLog : List String
deriving Repr, DecidableEq

/-- The `CREATE TABLE IF NOT EXISTS schema_migrations ...` DDL executed by
`initialize_migration_table`. -/
def createTableSQL : String :=
  "CREATE TABLE IF NOT EXISTS schema_migrations (version VARCHAR(255) PRIMARY KEY, name VARCHAR(255) NOT NULL, applied_at TIMESTAMP DEFAULT CURRENT_TIMESTAMP, checksum VARCHAR(64)); CREATE INDEX IF NOT EXISTS idx_schema_migrations_applied_at ON schema_migrations(applied_at);"

/-- `initialize_migration_table`: idempotently create the ledger table;
a failure of the DDL is logged and re-raised. -/
def initialize_migration_table (execOk : String → Bool) (s : DBState) :
    Except MigErr DBState :=
  if execOk createTableSQL then Except.ok { s with ledgerTable := true }
  else Except.error MigErr.initFailure

/-- `get_applied_migrations`: `SELECT version FROM schema_migrations ORDER
BY version`, projecting the rows.  Any executor failure — including the
table not existing — is caught and an empty list returned instead. -/
def get_applied_migrations (fetchOk : Bool) (s : DBState) : List String :=
  if fetchOk && s.ledgerTable then List.insertionSort vle (s.ledger.map Prod.fst)
  else []

/-- `apply_migration`: one transaction that executes `up_sql` and inserts
the ledger row.  If either step fails the transaction rolls back, so the
caller's state is unchanged (`Except.error`); the insert fails exactly on
a `version` primary-key conflict. -/
def apply_migration (execOk : String → Bool) (m : Migration) (s : DBState) :
    Except MigErr DBState :=
  if execOk m.up_sql then
    if (s.ledger.map Prod.fst).contains m.version then
      Except.error (MigErr.ledgerConflict m.version)
    else
      Except.ok { s with
        ledger := s.ledger ++ [(m.version, m.name)],
        sqlLog := s.sqlLog ++ [m.up_sql] }
  else Except.error (MigErr.execFailure m.version)

/-- `rollback_migration`: raises `ValueError` when `down_sql` is empty,
before acquiring any connection; otherwise one transaction that executes
`down_sql` and deletes the ledger row by version. -/
def rollback_migration (execOk : String → Bool) (m : Migration) (s : DBState) :
    Except MigErr DBState :=
  if m.down_sql = "" then Except.error (MigErr.noRollbackSQL m.version)
  else if execOk m.down_sql then
    Except.ok { s with
      ledger := s.ledger.filter fun r => !(r.1 == m.version),
      sqlLog := s.sqlLog ++ [m.down_sql] }
  else Except.error (MigErr.execFailure m.version)

/-- The `for migration in pending_migrations: await self.apply_migration(...)`
loop: apply each migration in list order, stopping at (and re-raising) the
first failure.  The state component persists across the raised error. -/
def runApply (execOk : String → Bool) : List Migration → DBState → DBState × Option MigErr
  | [], s => (s, none)
  | m :: ms, s =>
    match apply_migration execOk m s with
    | Except.ok s1 => runApply execOk ms s1
    | Except.error e => (s, some e)

/-- The rollback loop of `migrate_down`, mirroring `runApply`. -/
def runRollback (execOk : String → Bool) : List Migration → DBState → DBState × Option MigErr
  | [], s => (s, none)
  | m :: ms, s =>
    match rollback_migration execOk m s with
    | Except.ok s1 => runRollback execOk ms s1
    | Except.error e => (s, some e)

/-- The pending-set computation of `migrate_up`: available migrations not
in the applied list and, when `target_version` is truthy (Python `if
target_version:` — `None` and the empty string are falsy), at most the
target. -/
def pendingFor (applied : List String) (available : List Migration)
    (target : Option String) : List Migration :=
  let pending := available.filter fun m => !(applied.contains m.version)
  match target with
  | none => pending
  | some t => if t = "" then pending else pending.filter fun m => decide (vle m.version t)

/-- The rollback-set computation of `migrate_down`: iterate the available
migrations in reverse (descending-version) order keeping those applied and
strictly above the target. -/
def rollbackFor (applied : List String) (available : List Migration)
    (target : String) : List Migration :=
  available.reverse.filter fun m =>
    applied.contains m.version && decide (vlt target m.version)

/-- `migrate_up`: ensure the ledger table, read applied versions and the
directory, compute the pending set, apply it in order. -/
def migrate_up (execOk : String → Bool) (fetchOk : Bool)
    (files : List (String × String)) (target : Option String) (s : DBState) :
    DBState × Option MigErr :=
  match initialize_migration_table execOk s with
  | Except.error e => (s, some e)
  | Except.ok s1 =>
    runApply execOk
      (pendingFor (get_applied_migrations fetchOk s1)
        (load_migrations_from_directory files) target) s1

/-- `migrate_down`: ensure the ledger table, read applied versions and the
directory, compute the rollback set, roll it back in order. -/
def migrate_down (execOk : String → Bool) (fetchOk : Bool)
    (files : List (String × String)) (target : String) (s : DBState) :
    DBState × Option MigErr :=
  match initialize_migration_table execOk s with
  | Except.error e => (s, some e)
  | Except.ok s1 =>
    runRollback execOk
      (rollbackFor (get_applied_migrations fetchOk s1)
        (load_migrations_from_directory files) target) s1

/-- The dictionary returned by `get_migration_status`. -/
structure MigrationStatus where
  applied_count : Nat
  pending_count : Nat
  applied_migrations : List String
  pending_migrations : List String
  latest_applied : Option String
deriving Repr, DecidableEq

/-- `get_migration_status`: ensure the ledger table, then report applied
and pending versions, their counts, and `applied_migrations[-1]` (or
`None`).  Returns the status together with the resulting database state. -/
def get_migration_status (execOk : String → Bool) (fetchOk : Bool)
    (files : List (String × String)) (s : DBState) :
    Except MigErr (MigrationStatus × DBState) :=
  match initialize_migration_table execOk s with
  | Except.error e => Except.error e
  | Except.ok s1 =>
    let applied := get_applied_migrations fetchOk s1
    let pending := ((load_migrations_from_directory files).filter fun m =>
      !(applied.contains m.version)).map Migration.version
    Except.ok (⟨applied.length, pending.length, applied, pending,
      applied.getLast?⟩, s1)

/-! ### Properties of `splitFirst` -/

theorem splitFirst_sound {sep : List Char} :
    ∀ {l pre post : List Char}, splitFirst sep l = some (pre, post) →
      l = pre ++ sep ++ post := by
  intro l
  induction l with
  | nil =>
    intro pre post h
    simp only [splitFirst] at h
    split at h
    · next hs =>
      simp only [Option.some.injEq, Prod.mk.injEq] at h
      obtain ⟨h1, h2⟩ := h
      subst h1; subst h2
      simp [List.isEmpty_iff.mp hs]
    · exact absurd h (by simp)
  | cons c cs ih =>
    intro pre post h
    simp only [splitFirst] at h
    split at h
    · next hp =>
      simp only [Option.some.injEq, Prod.mk.injEq] at h
      obtain ⟨h1, h2⟩ := h
      subst h1; subst h2
      obtain ⟨t, ht⟩ := List.isPrefixOf_iff_prefix.mp hp
      rw [List.nil_append, ← ht, List.drop_left]
    · next hp =>
      cases hrec : splitFirst sep cs with
      | none => rw [hrec] at h; exact absurd h (by simp)
      | some pr =>
        obtain ⟨pre1, post1⟩ := pr
        rw [hrec] at h
        simp only [Option.some.injEq, Prod.mk.injEq] at h
        obtain ⟨h1, h2⟩ := h
        subst h1; subst h2
        have := ih hrec
        simp [this]

theorem splitFirst_min {sep : List Char} :
    ∀ {l pre post : List Char}, splitFirst sep l = some (pre, post) →
      ∀ j < pre.length, sep.isPrefixOf (l.drop j) = false := by
  intro l
  induction l with
  | nil =>
    intro pre post h
    simp only [splitFirst] at h
    split at h
    · simp only [Option.some.injEq, Prod.mk.injEq] at h
      obtain ⟨h1, _⟩ := h
      subst h1
      intro j hj
      exact absurd hj (by simp)
    · exact absurd h (by simp)
  | cons c cs ih =>
    intro pre post h
    simp only [splitFirst] at h
    split at h
    · simp only [Option.some.injEq, Prod.mk.injEq] at h
      obtain ⟨h1, _⟩ := h
      subst h1
      intro j hj
      exact absurd hj (by simp)
    · next hp =>
      cases hrec : splitFirst sep cs with
      | none => rw [hrec] at h; exact absurd h (by simp)
      | some pr =>
        obtain ⟨pre1, post1⟩ := pr
        rw [hrec] at h
        simp only [Option.some.injEq, Prod.mk.injEq] at h
        obtain ⟨h1, _⟩ := h
        subst h1
        intro j hj
        cases j with
        | zero => simpa using Bool.eq_false_iff.mpr hp
        | succ j =>
          rw [List.drop_succ_cons]
          exact ih hrec j (by simpa using hj)

theorem splitFirst_none {sep : List Char} (hsep : sep ≠ []) :
    ∀ {l : List Char}, splitFirst sep l = none →
      ∀ j, sep.isPrefixOf (l.drop j) = false := by
  intro l
  induction l with
  | nil =>
    intro _ j
    rw [List.drop_nil]
    cases sep with
    | nil => exact absurd rfl hsep
    | cons d ds => rfl
  | cons c cs ih =>
    intro h j
    simp only [splitFirst] at h
    split at h
    · exact absurd h (by simp)
    · next hp =>
      cases hrec : splitFirst sep cs with
      | some pr => rw [hrec] at h; exact absurd h (by simp)
      | none =>
        cases j with
        | zero => simpa using Bool.eq_false_iff.mpr hp
        | succ j =>
          rw [List.drop_succ_cons]
          exact ih hrec j

theorem splitFirst_complete {sep : List Char} (hsep : sep ≠ []) :
    ∀ {pre : List Char} (post : List Char),
      (∀ j < pre.length, sep.isPrefixOf ((pre ++ sep ++ post).drop j) = false) →
      splitFirst sep (pre ++ sep ++ post) = some (pre, post) := by
  intro pre
  induction pre with
  | nil =>
    intro post _
    have hpr : sep.isPrefixOf (sep ++ post) = true :=
      List.isPrefixOf_iff_prefix.mpr (List.prefix_append sep post)
    cases hs : sep with
    | nil => exact absurd hs hsep
    | cons d ds =>
      subst hs
      rw [List.nil_append, List.cons_append]
      have hpr2 : (d :: ds).isPrefixOf (d :: (ds ++ post)) = true := by
        rw [← List.cons_append]; exact hpr
      simp only [splitFirst, hpr2, if_true]
      rw [← List.cons_append, List.drop_left]
  | cons a pre ih =>
    intro post hmin
    have h0 : sep.isPrefixOf ((a :: pre ++ sep ++ post).drop 0) = false :=
      hmin 0 (by simp)
    rw [List.drop_zero] at h0
    have h0' : sep.isPrefixOf (a :: (pre ++ sep ++ post)) = false := by
      simpa using h0
    have hrest : splitFirst sep (pre ++ sep ++ post) = some (pre, post) := by
      refine ih post fun j hj => ?_
      have := hmin (j + 1) (by simpa using Nat.succ_lt_succ hj)
      simpa using this
    show splitFirst sep (a :: (pre ++ sep ++ post)) = some (a :: pre, post)
    simp only [splitFirst, h0', Bool.false_eq_true, if_false, hrest]

theorem splitFirst_single_not_mem {c : Char} {l pre post : List Char}
    (h : splitFirst [c] l = some (pre, post)) : c ∉ pre := by
  intro hc
  obtain ⟨j, hj, hget⟩ := List.getElem_of_mem hc
  have hmin := splitFirst_min h j hj
  have hsound := splitFirst_sound h
  have hdrop : l.drop j = c :: (pre.drop (j + 1) ++ [c] ++ post) := by
    rw [hsound, List.append_assoc, List.drop_append_eq_append_drop,
      Nat.sub_eq_zero_of_le (Nat.le_of_lt hj), List.drop_zero,
      List.drop_eq_getElem_cons hj, hget, List.cons_append, ← List.append_assoc]
  rw [hdrop] at hmin
  simp [List.isPrefixOf] at hmin

theorem splitFirst_single_none {c : Char} {l : List Char}
    (h : splitFirst [c] l = none) : c ∉ l := by
  intro hc
  obtain ⟨j, hj, hget⟩ := List.getElem_of_mem hc
  have hmin := splitFirst_none (by simp) h j
  rw [List.drop_eq_getElem_cons hj, hget] at hmin
  simp [List.isPrefixOf] at hmin

/-! ### Properties of `stripChars` and occurrence as an infix -/

theorem stripChars_append_ws {l ws : List Char} (hws : ∀ c ∈ ws, isPySpace c = true) :
    stripChars (l ++ ws) = stripChars l := by
  unfold stripChars
  have hwsnil : ws.dropWhile isPySpace = [] := List.dropWhile_eq_nil_iff.mpr hws
  cases hd : l.dropWhile isPySpace with
  | nil =>
    rw [List.dropWhile_append, hd, hwsnil]
    simp
  | cons x xs =>
    rw [List.dropWhile_append, hd]
    simp only [List.isEmpty_cons, Bool.false_eq_true, if_false]
    rw [List.reverse_append, List.dropWhile_append]
    have : ws.reverse.dropWhile isPySpace = [] :=
      List.dropWhile_eq_nil_iff.mpr fun c hc => hws c (List.mem_reverse.mp hc)
    rw [this]
    simp

theorem stripChars_cons_ws {c : Char} {l : List Char} (hc : isPySpace c = true) :
    stripChars (c :: l) = stripChars l := by
  unfold stripChars
  rw [List.dropWhile_cons_of_pos hc]

theorem exists_isPrefixOf_drop_iff_infix {sep l : List Char} :
    (∃ j, sep.isPrefixOf (l.drop j) = true) ↔ sep <:+: l := by
  constructor
  · rintro ⟨j, hj⟩
    obtain ⟨t, ht⟩ := List.isPrefixOf_iff_prefix.mp hj
    exact ⟨l.take j, t, by rw [List.append_assoc, ht, List.take_append_drop]⟩
  · rintro ⟨s, t, hst⟩
    refine ⟨s.length, List.isPrefixOf_iff_prefix.mpr ⟨t, ?_⟩⟩
    rw [← hst, List.append_assoc, List.drop_left]

/-! ### Characterizing the filename parser -/

theorem parse_some_of_two_underscores {stem : String} (content : String)
    (h : 2 ≤ stem.data.count '_') :
    ∃ s0 s1 rest, stem.data = s0 ++ '_' :: (s1 ++ '_' :: rest) ∧
      '_' ∉ s0 ∧ '_' ∉ s1 ∧
      _parse_migration_file stem content =
        some ⟨String.mk (s0 ++ '_' :: s1),
              pyTitle (underscoresToSpaces (String.mk rest)),
              pyStrip (contentSplit content).1,
              pyStrip (contentSplit content).2⟩ := by
  cases h1 : splitFirst ['_'] stem.data with
  | none =>
    have hc : stem.data.count '_' = 0 :=
      List.count_eq_zero.mpr (splitFirst_single_none h1)
    omega
  | some pr =>
    obtain ⟨a, r1⟩ := pr
    have ha : '_' ∉ a := splitFirst_single_not_mem h1
    have hs1 : stem.data = a ++ '_' :: r1 := by
      have := splitFirst_sound h1; simpa using this
    cases h2 : splitFirst ['_'] r1 with
    | none =>
      have hc : stem.data.count '_' = 1 := by
        rw [hs1]
        simp [List.count_append, List.count_cons_self,
          List.count_eq_zero.mpr ha,
          List.count_eq_zero.mpr (splitFirst_single_none h2)]
      omega
    | some pr2 =>
      obtain ⟨b, r2⟩ := pr2
      have hb : '_' ∉ b := splitFirst_single_not_mem h2
      have hr1 : r1 = b ++ '_' :: r2 := by
        have := splitFirst_sound h2; simpa using this
      refine ⟨a, b, r2, by rw [hs1, hr1], ha, hb, ?_⟩
      unfold _parse_migration_file
      rw [show pySplitTwo stem.data = [a, b, r2] by simp [pySplitTwo, h1, h2]]

theorem parse_none_of_one_underscore {stem : String} (content : String)
    (h : stem.data.count '_' < 2) :
    _parse_migration_file stem content = none := by
  cases h1 : splitFirst ['_'] stem.data with
  | none =>
    unfold _parse_migration_file
    rw [show pySplitTwo stem.data = [stem.data] by simp [pySplitTwo, h1]]
  | some pr =>
    obtain ⟨a, r1⟩ := pr
    have ha : '_' ∉ a := splitFirst_single_not_mem h1
    have hs1 : stem.data = a ++ '_' :: r1 := by
      have := splitFirst_sound h1; simpa using this
    cases h2 : splitFirst ['_'] r1 with
    | none =>
      unfold _parse_migration_file
      rw [show pySplitTwo stem.data = [a, r1] by simp [pySplitTwo, h1, h2]]
    | some pr2 =>
      obtain ⟨b, r2⟩ := pr2
      have hb : '_' ∉ b := splitFirst_single_not_mem h2
      have hr1 : r1 = b ++ '_' :: r2 := by
        have := splitFirst_sound h2; simpa using this
      have : 2 ≤ stem.data.count '_' := by
        rw [hs1, hr1]
        simp only [List.count_append, List.count_cons_self]
        omega
      omega

theorem parse_some_fields {stem content : String} {m : Migration}
    (hm : _parse_migration_file stem content = some m) :
    m.up_sql = pyStrip (contentSplit content).1 ∧
    m.down_sql = pyStrip (contentSplit content).2 := by
  unfold _parse_migration_file at hm
  cases hps : pySplitTwo stem.data with
  | nil => rw [hps] at hm; exact absurd hm (by simp)
  | cons p0 t0 =>
    cases t0 with
    | nil => rw [hps] at hm; exact absurd hm (by simp)
    | cons p1 t1 =>
      cases t1 with
      | nil => rw [hps] at hm; exact absurd hm (by simp)
      | cons p2 t2 =>
        cases t2 with
        | nil =>
          rw [hps] at hm
          simp only [Option.some.injEq] at hm
          rw [← hm]
          exact ⟨rfl, rfl⟩
        | cons p3 t3 => rw [hps] at hm; exact absurd hm (by simp)

theorem contentSplit_of_first {content : String} {pre post : List Char}
    (hc : content.data = pre ++ downMarker.data ++ post)
    (hmin : ∀ j < pre.length, downMarker.data.isPrefixOf (content.data.drop j) = false) :
    contentSplit content = (String.mk pre, String.mk post) := by
  unfold contentSplit
  rw [hc] at hmin ⊢
  rw [splitFirst_complete (by decide) post hmin]

theorem contentSplit_of_absent {content : String}
    (h : ¬ downMarker.data <:+: content.data) :
    contentSplit content = (content, "") := by
  unfold contentSplit
  cases hs : splitFirst downMarker.data content.data with
  | none => rfl
  | some pr =>
    obtain ⟨pre, post⟩ := pr
    exact absurd ⟨pre, post, (splitFirst_sound hs).symm⟩ h

/-! ### Claim theorems about the parser -/

/-- Claim C7: for every filename stem, the parser never raises (it is a
total function into `Option`): when the stem has at least three
underscore-separated segments — equivalently at least two underscores —
it produces a `Migration` whose `version` is the first two segments
joined by an underscore and whose `name` is the remaining text with
underscores replaced by spaces and title-cased; with fewer than three
segments it returns `none`, not an exception. -/
theorem parse_filename_spec (stem content : String) :
    (2 ≤ stem.data.count '_' →
      ∃ s0 s1 rest, stem.data = s0 ++ '_' :: (s1 ++ '_' :: rest) ∧
        '_' ∉ s0 ∧ '_' ∉ s1 ∧
        ∃ m, _parse_migration_file stem content = some m ∧
          m.version = String.mk (s0 ++ '_' :: s1) ∧
          m.name = pyTitle (String.mk (rest.map fun c => if c = '_' then ' ' else c))) ∧
    (stem.data.count '_' < 2 → _parse_migration_file stem content = none) := by
  constructor
  · intro h
    obtain ⟨s0, s1, rest, heq, h0, h1, hp⟩ := parse_some_of_two_underscores content h
    exact ⟨s0, s1, rest, heq, h0, h1, _, hp, rfl, rfl⟩
  · exact parse_none_of_one_underscore content

theorem parse_filename_spec_witness :
    ∃ s0 s1 rest,
      "20240115_093000_create_users_table".data = s0 ++ '_' :: (s1 ++ '_' :: rest) ∧
      '_' ∉ s0 ∧ '_' ∉ s1 ∧
      ∃ m, _parse_migration_file "20240115_093000_create_users_table"
          "CREATE TABLE users;" = some m ∧
        m.version = String.mk (s0 ++ '_' :: s1) ∧
        m.name = pyTitle (String.mk (rest.map fun c => if c = '_' then ' ' else c)) :=
  (parse_filename_spec "20240115_093000_create_users_table" "CREATE TABLE users;").1
    (by decide)

/-- Claim C10: the parser validates only the segment count, not the
segment contents: any stem with at least three underscore-separated
segments parses successfully, digits or not; in particular
`foo_bar_baz` yields version `foo_bar` and name `Baz`, for any content. -/
theorem parse_ignores_segment_contents :
    (∀ stem content : String,
      (_parse_migration_file stem content).isSome = true ↔ 2 ≤ stem.data.count '_') ∧
    (∀ content : String, ∃ m, _parse_migration_file "foo_bar_baz" content = some m ∧
      m.version = "foo_bar" ∧ m.name = "Baz") := by
  constructor
  · intro stem content
    constructor
    · intro hs
      by_contra hlt
      rw [parse_none_of_one_underscore content (by omega)] at hs
      simp at hs
    · intro h
      obtain ⟨s0, s1, rest, _, _, _, hp⟩ := parse_some_of_two_underscores content h
      rw [hp]; rfl
  · intro content
    refine ⟨⟨"foo_bar", "Baz", pyStrip (contentSplit content).1,
      pyStrip (contentSplit content).2⟩, ?_, rfl, rfl⟩
    unfold _parse_migration_file
    rw [show pySplitTwo "foo_bar_baz".data = ["foo".data, "bar".data, "baz".data]
      from by decide]
    simp only [Option.some.injEq, Migration.mk.injEq]
    refine ⟨by decide, by decide, ?_⟩
    simp

theorem parse_ignores_segment_contents_witness :
    ∃ m, _parse_migration_file "foo_bar_baz" "SELECT 1;" = some m ∧
      m.version = "foo_bar" ∧ m.name = "Baz" :=
  parse_ignores_segment_contents.2 "SELECT 1;"

/-- Claim C8: for every migration file content, the parser splits on the
first occurrence of the literal marker `-- DOWN`: the text before the
marker, trimmed, becomes `up_sql` and the text after it, trimmed, becomes
`down_sql`; when the marker does not occur, `up_sql` is the whole trimmed
content and `down_sql` is empty. -/
theorem parse_content_marker_spec (stem content : String) (m : Migration)
    (hm : _parse_migration_file stem content = some m) :
    (∀ pre post, content.data = pre ++ downMarker.data ++ post →
      (∀ j < pre.length, downMarker.data.isPrefixOf (content.data.drop j) = false) →
      m.up_sql = pyStrip (String.mk pre) ∧ m.down_sql = pyStrip (String.mk post)) ∧
    (¬ downMarker.data <:+: content.data →
      m.up_sql = pyStrip content ∧ m.down_sql = "") := by
  obtain ⟨hup, hdown⟩ := parse_some_fields hm
  constructor
  · intro pre post hc hmin
    rw [contentSplit_of_first hc hmin] at hup hdown
    exact ⟨hup, hdown⟩
  · intro habs
    rw [contentSplit_of_absent habs] at hup hdown
    exact ⟨hup, hdown⟩

theorem parse_content_marker_spec_witness :
    ∃ m, _parse_migration_file "a_b_c" "X\n-- DOWN\nY" = some m ∧
      m.up_sql = pyStrip (String.mk "X\n".data) ∧
      m.down_sql = pyStrip (String.mk "\nY".data) := by
  have hm : _parse_migration_file "a_b_c" "X\n-- DOWN\nY" =
      some ⟨"a_b", "C", "X", "Y"⟩ := by decide
  exact ⟨_, hm,
    (parse_content_marker_spec "a_b_c" "X\n-- DOWN\nY" _ hm).1 "X\n".data "\nY".data
      (by decide) (by decide)⟩

/-! ### Helper lemmas about the database operations -/

theorem get_applied_sorted (fetchOk : Bool) (s : DBState) :
    List.Sorted vle (get_applied_migrations fetchOk s) := by
  unfold get_applied_migrations
  split
  · exact List.sorted_insertionSort vle _
  · exact List.sorted_nil

theorem sorted_vle_getLast_max {l : List String} (hs : List.Sorted vle l) :
    ∀ {v m : String}, l.getLast? = some m → v ∈ l → vle v m := by
  induction l with
  | nil => intro v m _ hv; cases hv
  | cons a t ih =>
    intro v m hm hv
    cases t with
    | nil =>
      simp only [List.getLast?_singleton, Option.some.injEq] at hm
      rcases List.mem_singleton.mp hv with rfl
      rw [← hm]
      exact le_refl _
    | cons b t2 =>
      rw [List.getLast?_cons_cons] at hm
      rcases List.mem_cons.mp hv with rfl | hv2
      · exact (List.sorted_cons.mp hs).1 m (List.mem_of_mem_getLast? hm)
      · exact ih (List.sorted_cons.mp hs).2 hm hv2

theorem apply_migration_ok {execOk : String → Bool} {m : Migration} {s s1 : DBState}
    (h : apply_migration execOk m s = Except.ok s1) :
    execOk m.up_sql = true ∧ m.version ∉ s.ledger.map Prod.fst ∧
    s1 = { s with ledger := s.ledger ++ [(m.version, m.name)],
                  sqlLog := s.sqlLog ++ [m.up_sql] } := by
  unfold apply_migration at h
  split at h
  · next hexec =>
    split at h
    · exact absurd h (by simp)
    · next hcont =>
      simp only [Except.ok.injEq] at h
      refine ⟨hexec, fun hmem => hcont (by simpa using hmem), h.symm⟩
  · exact absurd h (by simp)

theorem rollback_migration_ok {execOk : String → Bool} {m : Migration} {s s1 : DBState}
    (h : rollback_migration execOk m s = Except.ok s1) :
    m.down_sql ≠ "" ∧ execOk m.down_sql = true ∧
    s1 = { s with ledger := s.ledger.filter fun r => !(r.1 == m.version),
                  sqlLog := s.sqlLog ++ [m.down_sql] } := by
  unfold rollback_migration at h
  split at h
  · exact absurd h (by simp)
  · next hne =>
    split at h
    · next hexec =>
      simp only [Except.ok.injEq] at h
      exact ⟨hne, hexec, h.symm⟩
    · exact absurd h (by simp)

theorem runApply_decomp (execOk : String → Bool) :
    ∀ (ms : List Migration) (s : DBState),
      ∃ p rest, ms = p ++ rest ∧
        (runApply execOk ms s).1.ledger =
          s.ledger ++ p.map (fun m => (m.version, m.name)) ∧
        (runApply execOk ms s).1.sqlLog = s.sqlLog ++ p.map Migration.up_sql ∧
        (runApply execOk ms s).1.ledgerTable = s.ledgerTable ∧
        (p.map Migration.version).Nodup ∧
        (∀ v ∈ p.map Migration.version, v ∉ s.ledger.map Prod.fst) ∧
        ((runApply execOk ms s).2 = none → rest = []) := by
  intro ms
  induction ms with
  | nil =>
    intro s
    exact ⟨[], [], rfl, by simp [runApply], by simp [runApply], rfl, by simp,
      by simp, fun _ => rfl⟩
  | cons m ms ih =>
    intro s
    cases ha : apply_migration execOk m s with
    | error e =>
      refine ⟨[], m :: ms, rfl, by simp [runApply, ha], by simp [runApply, ha],
        by simp [runApply, ha], by simp, by simp, ?_⟩
      intro hnone
      rw [runApply, ha] at hnone
      exact absurd hnone (by simp)
    | ok s1 =>
      obtain ⟨hexec, hnotin, hs1⟩ := apply_migration_ok ha
      obtain ⟨p, rest, hms, hl, hq, ht, hnd, hnin, herr⟩ := ih s1
      have hrun : runApply execOk (m :: ms) s = runApply execOk ms s1 := by
        rw [runApply, ha]
      have hfst : s1.ledger.map Prod.fst = s.ledger.map Prod.fst ++ [m.version] := by
        rw [hs1]; simp
      refine ⟨m :: p, rest, by rw [hms, List.cons_append], ?_, ?_, ?_, ?_, ?_, ?_⟩
      · rw [hrun, hl, hs1]; simp
      · rw [hrun, hq, hs1]; simp
      · rw [hrun, ht, hs1]
      · refine List.Pairwise.cons ?_ hnd
        intro v hv hvm
        have := hnin v (by simpa using hv)
        rw [hfst] at this
        exact this (by simp [hvm])
      · intro v hv
        rcases List.mem_cons.mp hv with rfl | hv2
        · exact hnotin
        · intro hmem
          exact hnin v hv2 (by rw [hfst]; exact List.mem_append_left _ hmem)
      · intro hnone
        rw [hrun] at hnone
        exact herr hnone

theorem runApply_append {execOk : String → Bool} :
    ∀ {p : List Migration} {s s2 : DBState},
      runApply execOk p s = (s2, none) → ∀ rest,
      runApply execOk (p ++ rest) s = runApply execOk rest s2 := by
  intro p
  induction p with
  | nil =>
    intro s s2 h rest
    rw [runApply] at h
    simp only [Prod.mk.injEq] at h
    rw [List.nil_append, h.1]
  | cons m ms ih =>
    intro s s2 h rest
    rw [runApply] at h
    rw [List.cons_append, runApply]
    cases ha : apply_migration execOk m s with
    | error e =>
      rw [ha] at h
      exact absurd h (by simp)
    | ok s1 =>
      rw [ha] at h
      exact ih h rest

theorem runRollback_append {execOk : String → Bool} :
    ∀ {p : List Migration} {s s2 : DBState},
      runRollback execOk p s = (s2, none) → ∀ rest,
      runRollback execOk (p ++ rest) s = runRollback execOk rest s2 := by
  intro p
  induction p with
  | nil =>
    intro s s2 h rest
    rw [runRollback] at h
    simp only [Prod.mk.injEq] at h
    rw [List.nil_append, h.1]
  | cons m ms ih =>
    intro s s2 h rest
    rw [runRollback] at h
    rw [List.cons_append, runRollback]
    cases ha : rollback_migration execOk m s with
    | error e =>
      rw [ha] at h
      exact absurd h (by simp)
    | ok s1 =>
      rw [ha] at h
      exact ih h rest

theorem runRollback_ok_ledger {execOk : String → Bool} :
    ∀ {ms : List Migration} {s s2 : DBState},
      runRollback execOk ms s = (s2, none) →
      (∀ r, r ∈ s2.ledger ↔ r ∈ s.ledger ∧ r.1 ∉ ms.map Migration.version) ∧
      s2.ledgerTable = s.ledgerTable := by
  intro ms
  induction ms with
  | nil =>
    intro s s2 h
    rw [runRollback] at h
    simp only [Prod.mk.injEq] at h
    rw [← h.1]
    exact ⟨fun r => by simp, rfl⟩
  | cons m ms ih =>
    intro s s2 h
    rw [runRollback] at h
    cases ha : rollback_migration execOk m s with
    | error e =>
      rw [ha] at h
      exact absurd h (by simp)
    | ok s1 =>
      rw [ha] at h
      obtain ⟨_, _, hs1⟩ := rollback_migration_ok ha
      obtain ⟨hmem, htab⟩ := ih h
      constructor
      · intro r
        rw [hmem r, hs1]
        simp only [List.mem_filter, List.map_cons, List.mem_cons]
        constructor
        · rintro ⟨⟨hr, hne⟩, hnot⟩
          refine ⟨hr, ?_⟩
          rintro (hv | hv)
          · rw [hv] at hne; simp at hne
          · exact hnot hv
        · rintro ⟨hr, hnot⟩
          refine ⟨⟨hr, ?_⟩, fun hv => hnot (Or.inr hv)⟩
          simp only [Bool.not_eq_true', beq_eq_false_iff_ne, ne_eq]
          intro hv
          exact hnot (Or.inl hv)
      · rw [htab, hs1]

theorem load_sorted (files : List (String × String)) :
    List.Sorted mle (load_migrations_from_directory files) :=
  List.sorted_insertionSort mle _

theorem pendingFor_mem (applied : List String) (available : List Migration)
    (target : Option String) (m : Migration) :
    m ∈ pendingFor applied available target ↔
      m ∈ available ∧ m.version ∉ applied ∧
        ∀ t, target = some t → t ≠ "" → vle m.version t := by
  unfold pendingFor
  cases target with
  | none => simp [List.mem_filter]
  | some t =>
    by_cases ht : t = ""
    · subst ht
      simp [List.mem_filter]
    · simp only [if_neg ht, List.mem_filter, List.mem_filter, Bool.not_eq_true',
        decide_eq_true_eq, Option.some.injEq]
      constructor
      · rintro ⟨⟨hav, hcont⟩, hvle⟩
        refine ⟨hav, ?_, ?_⟩
        · intro hmem
          have hc2 : applied.contains m.version = true := by simpa using hmem
          rw [hc2] at hcont
          simp at hcont
        · rintro t2 rfl _
          exact hvle
      · rintro ⟨hav, hnot, hvle⟩
        refine ⟨⟨hav, ?_⟩, hvle t rfl ht⟩
        by_contra hc
        rw [Bool.not_eq_false] at hc
        exact hnot (by simpa using hc)

theorem pendingFor_sorted (applied : List String) (available : List Migration)
    (target : Option String) (hs : List.Sorted mle available) :
    List.Sorted mle (pendingFor applied available target) := by
  unfold pendingFor
  cases target with
  | none => exact List.Pairwise.sublist (List.filter_sublist _) hs
  | some t =>
    by_cases ht : t = ""
    · subst ht
      simp only [if_pos rfl]
      exact List.Pairwise.sublist (List.filter_sublist _) hs
    · simp only [if_neg ht]
      exact List.Pairwise.sublist ((List.filter_sublist _).trans (List.filter_sublist _)) hs

theorem rollbackFor_mem (applied : List String) (available : List Migration)
    (target : String) (m : Migration) :
    m ∈ rollbackFor applied available target ↔
      m ∈ available ∧ m.version ∈ applied ∧ vlt target m.version := by
  unfold rollbackFor
  simp only [List.mem_filter, List.mem_reverse, Bool.and_eq_true, decide_eq_true_eq]
  constructor
  · rintro ⟨hav, hcont, hlt⟩
    refine ⟨hav, ?_, hlt⟩
    simpa using hcont
  · rintro ⟨hav, hmem, hlt⟩
    exact ⟨hav, by simpa using hmem, hlt⟩

theorem rollbackFor_sorted (applied : List String) (available : List Migration)
    (target : String) (hs : List.Sorted mle available) :
    List.Sorted (fun a b => mle b a) (rollbackFor applied available target) := by
  unfold rollbackFor
  have hrev : List.Pairwise (fun a b => mle b a) available.reverse :=
    List.pairwise_reverse.mpr hs
  exact List.Pairwise.sublist (List.filter_sublist _) hrev

/-! ### Claim theorems about the ledger accessor and status -/

/-- Claim C5: `get_applied_migrations` returns all version values from the
ledger in ascending order (a sorted permutation of the ledger's version
column), and on any executor failure — the fetch failing, or the ledger
table not existing — it returns an empty list instead of propagating the
exception, for every database state. -/
theorem get_applied_migrations_spec (s : DBState) :
    (∀ fetchOk, fetchOk = false ∨ s.ledgerTable = false →
      get_applied_migrations fetchOk s = []) ∧
    (s.ledgerTable = true →
      List.Sorted vle (get_applied_migrations true s) ∧
      (get_applied_migrations true s).Perm (s.ledger.map Prod.fst)) := by
  constructor
  · intro fetchOk h
    unfold get_applied_migrations
    rcases h with rfl | htab
    · simp
    · rw [htab]; simp
  · intro htab
    refine ⟨get_applied_sorted true s, ?_⟩
    unfold get_applied_migrations
    rw [htab]
    simpa using List.perm_insertionSort vle (s.ledger.map Prod.fst)

theorem get_applied_migrations_spec_witness :
    get_applied_migrations false ⟨true, [("20240102_000000", "B"), ("20240101_000000", "A")], []⟩ = [] ∧
    (List.Sorted vle (get_applied_migrations true
        ⟨true, [("20240102_000000", "B"), ("20240101_000000", "A")], []⟩) ∧
      (get_applied_migrations true
        ⟨true, [("20240102_000000", "B"), ("20240101_000000", "A")], []⟩).Perm
        (([("20240102_000000", "B"), ("20240101_000000", "A")] : List (String × String)).map Prod.fst)) :=
  ⟨(get_applied_migrations_spec ⟨true, [("20240102_000000", "B"), ("20240101_000000", "A")], []⟩).1
      false (Or.inl rfl),
   (get_applied_migrations_spec ⟨true, [("20240102_000000", "B"), ("20240101_000000", "A")], []⟩).2 rfl⟩

/-- Claim C6 is refuted as stated: `get_migration_status` is not a pure
read.  It begins with `initialize_migration_table`, whose
`CREATE TABLE IF NOT EXISTS` creates the ledger table when it is absent —
a database state change.  Concretely, from a state without the ledger
table, the returned state has it. -/
theorem get_migration_status_not_pure :
    get_migration_status (fun _ => true) true [] ⟨false, [], []⟩ =
      Except.ok (⟨0, 0, [], [], none⟩, ⟨true, [], []⟩) ∧
    (⟨true, [], []⟩ : DBState) ≠ ⟨false, [], []⟩ := by
  constructor
  · rfl
  · decide

/-- Claim C6 (amended): `get_migration_status` modifies no database state
beyond idempotently ensuring the ledger table exists (its rows and the
committed-SQL log are unchanged; a state that already has the table is
returned unchanged), and returns the applied count, pending count, the two
version lists, and a latest-applied version that is the maximum of the
applied list (`none` when no migration is applied); with zero migrations
in the directory and zero applied rows it reports
`applied_count = 0, pending_count = 0, latest_applied = none` (shown by
the accompanying counterexample evaluation and by the witness). -/
theorem get_migration_status_spec (execOk : String → Bool) (fetchOk : Bool)
    (files : List (String × String)) (s : DBState)
    (hinit : execOk createTableSQL = true) :
    ∃ st, get_migration_status execOk fetchOk files s =
        Except.ok (st, { s with ledgerTable := true }) ∧
      st.applied_migrations = get_applied_migrations fetchOk { s with ledgerTable := true } ∧
      st.pending_migrations = ((load_migrations_from_directory files).filter fun m =>
        !(st.applied_migrations.contains m.version)).map Migration.version ∧
      st.applied_count = st.applied_migrations.length ∧
      st.pending_count = st.pending_migrations.length ∧
      (st.latest_applied = none ↔ st.applied_migrations = []) ∧
      ∀ v, st.latest_applied = some v →
        v ∈ st.applied_migrations ∧ ∀ w ∈ st.applied_migrations, vle w v := by
  have hstatus : get_migration_status execOk fetchOk files s =
      Except.ok (⟨(get_applied_migrations fetchOk { s with ledgerTable := true }).length,
        (((load_migrations_from_directory files).filter fun m =>
          !((get_applied_migrations fetchOk { s with ledgerTable := true }).contains
            m.version)).map Migration.version).length,
        get_applied_migrations fetchOk { s with ledgerTable := true },
        ((load_migrations_from_directory files).filter fun m =>
          !((get_applied_migrations fetchOk { s with ledgerTable := true }).contains
            m.version)).map Migration.version,
        (get_applied_migrations fetchOk { s with ledgerTable := true }).getLast?⟩,
        { s with ledgerTable := true }) := by
    unfold get_migration_status initialize_migration_table
    rw [hinit]
    rfl
  refine ⟨_, hstatus, rfl, rfl, rfl, rfl, ?_, ?_⟩
  · simp only []
    exact List.getLast?_eq_none_iff
  · intro v hv
    refine ⟨List.mem_of_mem_getLast? hv, fun w hw => ?_⟩
    exact sorted_vle_getLast_max (get_applied_sorted fetchOk _) hv hw

theorem get_migration_status_spec_witness :
    ∃ st, get_migration_status (fun _ => true) true [] ⟨false, [], []⟩ =
        Except.ok (st, ⟨true, [], []⟩) ∧
      st.applied_migrations = get_applied_migrations true ⟨true, [], []⟩ ∧
      st.pending_migrations = ((load_migrations_from_directory []).filter fun m =>
        !(st.applied_migrations.contains m.version)).map Migration.version ∧
      st.applied_count = st.applied_migrations.length ∧
      st.pending_count = st.pending_migrations.length ∧
      (st.latest_applied = none ↔ st.applied_migrations = []) ∧
      ∀ v, st.latest_applied = some v →
        v ∈ st.applied_migrations ∧ ∀ w ∈ st.applied_migrations, vle w v :=
  get_migration_status_spec (fun _ => true) true [] ⟨false, [], []⟩ rfl

/-! ### Claim theorems about the orchestrator -/

/-- Claim C1 is refuted as stated for one boundary input: with the
empty-string target, Python's `if target_version:` is falsy, so the
`version <= target_version` restriction is skipped entirely.  Here a
migration whose version is not `<= ""` is applied anyway. -/
theorem migrate_up_empty_target_counterexample :
    (migrate_up (fun _ => true) true [("20240101_120000_init", "SELECT 1")]
      (some "") ⟨false, [], []⟩).1.ledger = [("20240101_120000", "Init")] ∧
    ¬ vle "20240101_120000" "" := by
  constructor
  · decide
  · decide

/-- Claim C1 (amended): with a reachable ledger-table creation, the
pending set computed by `migrate_up` consists of exactly the available
migrations whose version is not among the applied versions, further
restricted to `version <= target` when a *non-empty* target is given (an
empty-string target is treated like no target); the attempted order is
ascending by version; the run is the per-migration transaction loop
`runApply` over that list; and the migrations actually applied are a
prefix of it whose versions are strictly ascending, appended to the ledger
in that order (all of them when no error occurred). -/
theorem migrate_up_spec (execOk : String → Bool) (fetchOk : Bool)
    (files : List (String × String)) (target : Option String) (s : DBState)
    (hinit : execOk createTableSQL = true) :
    ∃ p rest,
      pendingFor (get_applied_migrations fetchOk { s with ledgerTable := true })
        (load_migrations_from_directory files) target = p ++ rest ∧
      (∀ m, m ∈ p ++ rest ↔ m ∈ load_migrations_from_directory files ∧
        m.version ∉ get_applied_migrations fetchOk { s with ledgerTable := true } ∧
        ∀ t, target = some t → t ≠ "" → vle m.version t) ∧
      List.Sorted vle ((p ++ rest).map Migration.version) ∧
      migrate_up execOk fetchOk files target s =
        runApply execOk (p ++ rest) { s with ledgerTable := true } ∧
      (migrate_up execOk fetchOk files target s).1.ledger =
        s.ledger ++ p.map (fun m => (m.version, m.name)) ∧
      List.Pairwise (fun a b => vle a b ∧ a ≠ b) (p.map Migration.version) ∧
      ((migrate_up execOk fetchOk files target s).2 = none → rest = []) := by
  have hrun : migrate_up execOk fetchOk files target s =
      runApply execOk
        (pendingFor (get_applied_migrations fetchOk { s with ledgerTable := true })
          (load_migrations_from_directory files) target)
        { s with ledgerTable := true } := by
    unfold migrate_up initialize_migration_table
    rw [hinit]
    rfl
  obtain ⟨p, rest, hsplit, hl, _, _, hnd, _, herr⟩ :=
    runApply_decomp execOk
      (pendingFor (get_applied_migrations fetchOk { s with ledgerTable := true })
        (load_migrations_from_directory files) target)
      { s with ledgerTable := true }
  have hsortedAll : List.Sorted vle ((p ++ rest).map Migration.version) := by
    rw [← hsplit]
    exact List.pairwise_map.mpr
      (pendingFor_sorted _ _ _ (load_sorted files))
  refine ⟨p, rest, hsplit, ?_, hsortedAll, ?_, ?_, ?_, ?_⟩
  · intro m
    rw [← hsplit]
    exact pendingFor_mem _ _ _ m
  · rw [hrun, hsplit]
  · rw [hrun, hsplit]
    rw [hsplit] at hl
    exact hl
  · have hsortedP : List.Sorted vle (p.map Migration.version) :=
      List.Pairwise.sublist (List.Sublist.map _ (List.prefix_append p rest).sublist)
        hsortedAll
    exact hsortedP.and hnd
  · intro hnone
    rw [hrun] at hnone
    exact herr hnone

theorem migrate_up_spec_witness :
    ∃ p rest,
      pendingFor (get_applied_migrations true ⟨true, [], []⟩)
        (load_migrations_from_directory [("20240101_120000_a", "A1")]) none = p ++ rest ∧
      (∀ m, m ∈ p ++ rest ↔ m ∈ load_migrations_from_directory [("20240101_120000_a", "A1")] ∧
        m.version ∉ get_applied_migrations true ⟨true, [], []⟩ ∧
        ∀ t, (none : Option String) = some t → t ≠ "" → vle m.version t) ∧
      List.Sorted vle ((p ++ rest).map Migration.version) ∧
      migrate_up (fun _ => true) true [("20240101_120000_a", "A1")] none ⟨false, [], []⟩ =
        runApply (fun _ => true) (p ++ rest) ⟨true, [], []⟩ ∧
      (migrate_up (fun _ => true) true [("20240101_120000_a", "A1")] none
        ⟨false, [], []⟩).1.ledger =
        ([] : List (String × String)) ++ p.map (fun m => (m.version, m.name)) ∧
      List.Pairwise (fun a b => vle a b ∧ a ≠ b) (p.map Migration.version) ∧
      ((migrate_up (fun _ => true) true [("20240101_120000_a", "A1")] none
        ⟨false, [], []⟩).2 = none → rest = []) :=
  migrate_up_spec (fun _ => true) true [("20240101_120000_a", "A1")] none ⟨false, [], []⟩ rfl

/-- Claim C2: if applying a pending migration fails (its `up_sql` or its
ledger insert), `migrate_up` rolls that migration's transaction back —
the result state is exactly the state `s2` reached after the successful
prefix `p`, so the failing migration is recorded as applied only if it
already was — and aborts immediately: the result does not depend on the
later pending migrations, and every migration applied before the failure
remains in the ledger. -/
theorem migrate_up_failure_spec (execOk : String → Bool) (fetchOk : Bool)
    (files : List (String × String)) (target : Option String) (s s2 : DBState)
    (p rest : List Migration) (mf : Migration) (e : MigErr)
    (hinit : execOk createTableSQL = true)
    (hpend : pendingFor (get_applied_migrations fetchOk { s with ledgerTable := true })
      (load_migrations_from_directory files) target = p ++ mf :: rest)
    (hp : runApply execOk p { s with ledgerTable := true } = (s2, none))
    (hf : apply_migration execOk mf s2 = Except.error e) :
    migrate_up execOk fetchOk files target s = (s2, some e) ∧
    s2.ledger = s.ledger ++ p.map (fun m => (m.version, m.name)) ∧
    (mf.version ∈ s2.ledger.map Prod.fst ↔
      mf.version ∈ s.ledger.map Prod.fst ∨ mf.version ∈ p.map Migration.version) := by
  have hrun : migrate_up execOk fetchOk files target s =
      runApply execOk (p ++ mf :: rest) { s with ledgerTable := true } := by
    unfold migrate_up initialize_migration_table
    rw [hinit, ← hpend]
    rfl
  have h3 : runApply execOk (mf :: rest) s2 = (s2, some e) := by
    rw [runApply, hf]
  have h1 : migrate_up execOk fetchOk files target s = (s2, some e) :=
    hrun.trans ((runApply_append hp (mf :: rest)).trans h3)
  obtain ⟨p2, rest2, hsp, hl2, _, _, _, _, herr2⟩ :=
    runApply_decomp execOk p { s with ledgerTable := true }
  rw [hp] at hl2 herr2
  have hrest2 : rest2 = [] := herr2 rfl
  rw [hrest2, List.append_nil] at hsp
  subst hsp
  have hledger : s2.ledger = s.ledger ++ p.map fun m => (m.version, m.name) := hl2
  refine ⟨h1, hledger, ?_⟩
  rw [hledger]
  simp [List.mem_append]

theorem migrate_up_failure_spec_witness :
    (migrate_up (fun sql => !(sql == "B2")) true
        [("20240101_120000_a", "A1"), ("20240102_120000_b", "B2"), ("20240103_120000_c", "C3")]
        none ⟨false, [], []⟩ =
      (⟨true, [("20240101_120000", "A")], ["A1"]⟩,
        some (MigErr.execFailure "20240102_120000")) ∧
    (⟨true, [("20240101_120000", "A")], ["A1"]⟩ : DBState).ledger =
      ([] : List (String × String)) ++
        [(⟨"20240101_120000", "A", "A1", ""⟩ : Migration)].map (fun m => (m.version, m.name)) ∧
    (("20240102_120000" : String) ∈
        (⟨true, [("20240101_120000", "A")], ["A1"]⟩ : DBState).ledger.map Prod.fst ↔
      ("20240102_120000" : String) ∈ ([] : List (String × String)).map Prod.fst ∨
      ("20240102_120000" : String) ∈
        [(⟨"20240101_120000", "A", "A1", ""⟩ : Migration)].map Migration.version)) ∧
    get_migration_status (fun _ => true) true
        [("20240101_120000_a", "A1"), ("20240102_120000_b", "B2"), ("20240103_120000_c", "C3")]
        ⟨true, [("20240101_120000", "A")], ["A1"]⟩ =
      Except.ok (⟨1, 2, ["20240101_120000"], ["20240102_120000", "20240103_120000"],
        some "20240101_120000"⟩, ⟨true, [("20240101_120000", "A")], ["A1"]⟩) :=
  ⟨migrate_up_failure_spec (fun sql => !(sql == "B2")) true
      [("20240101_120000_a", "A1"), ("20240102_120000_b", "B2"), ("20240103_120000_c", "C3")]
      none ⟨false, [], []⟩ ⟨true, [("20240101_120000", "A")], ["A1"]⟩
      [⟨"20240101_120000", "A", "A1", ""⟩] [⟨"20240103_120000", "C", "C3", ""⟩]
      ⟨"20240102_120000", "B", "B2", ""⟩ (MigErr.execFailure "20240102_120000")
      (by decide) (by decide) (by decide) rfl,
   rfl⟩

/-- Claim C3: for every target version, `migrate_down` processes exactly
the available migrations that are both currently applied and have version
strictly greater than the target, in descending version order (the
reverse of apply order); a migration whose version equals the target is
never in the rollback set; and when the run succeeds, the remaining
ledger rows are exactly those whose version was not rolled back. -/
theorem migrate_down_spec (execOk : String → Bool) (fetchOk : Bool)
    (files : List (String × String)) (target : String) (s : DBState)
    (hinit : execOk createTableSQL = true) :
    ∃ rb, rb = rollbackFor (get_applied_migrations fetchOk { s with ledgerTable := true })
        (load_migrations_from_directory files) target ∧
      (∀ m, m ∈ rb ↔ m ∈ load_migrations_from_directory files ∧
        m.version ∈ get_applied_migrations fetchOk { s with ledgerTable := true } ∧
        vlt target m.version) ∧
      (∀ m ∈ rb, m.version ≠ target) ∧
      List.Sorted (fun a b => vle b a) (rb.map Migration.version) ∧
      migrate_down execOk fetchOk files target s =
        runRollback execOk rb { s with ledgerTable := true } ∧
      ((migrate_down execOk fetchOk files target s).2 = none →
        ∀ r, r ∈ (migrate_down execOk fetchOk files target s).1.ledger ↔
          r ∈ s.ledger ∧ r.1 ∉ rb.map Migration.version) := by
  have hrun : migrate_down execOk fetchOk files target s =
      runRollback execOk
        (rollbackFor (get_applied_migrations fetchOk { s with ledgerTable := true })
          (load_migrations_from_directory files) target)
        { s with ledgerTable := true } := by
    unfold migrate_down initialize_migration_table
    rw [hinit]
    rfl
  refine ⟨_, rfl, fun m => rollbackFor_mem _ _ _ m, ?_, ?_, hrun, ?_⟩
  · intro m hm heq
    have hlt := ((rollbackFor_mem _ _ _ m).mp hm).2.2
    rw [heq] at hlt
    exact lt_irrefl _ hlt
  · exact List.pairwise_map.mpr (rollbackFor_sorted _ _ _ (load_sorted files))
  · intro hnone
    rw [hrun] at hnone
    have heq : runRollback execOk
        (rollbackFor (get_applied_migrations fetchOk { s with ledgerTable := true })
          (load_migrations_from_directory files) target)
        { s with ledgerTable := true } =
        ((migrate_down execOk fetchOk files target s).1, none) := by
      rw [hrun, ← hnone]
    obtain ⟨hmem, _⟩ := runRollback_ok_ledger heq
    exact hmem

theorem migrate_down_spec_witness :
    ∃ rb, rb = rollbackFor
        (get_applied_migrations true
          ⟨true, [("20240101_120000", "A"), ("20240102_120000", "B"),
            ("20240103_120000", "C")], []⟩)
        (load_migrations_from_directory
          [("20240101_120000_a", "A1\n-- DOWN\nuA"), ("20240102_120000_b", "B2\n-- DOWN\nuB"),
            ("20240103_120000_c", "C3\n-- DOWN\nuC")]) "20240101_120000" ∧
      (∀ m, m ∈ rb ↔ m ∈ load_migrations_from_directory
          [("20240101_120000_a", "A1\n-- DOWN\nuA"), ("20240102_120000_b", "B2\n-- DOWN\nuB"),
            ("20240103_120000_c", "C3\n-- DOWN\nuC")] ∧
        m.version ∈ get_applied_migrations true
          ⟨true, [("20240101_120000", "A"), ("20240102_120000", "B"),
            ("20240103_120000", "C")], []⟩ ∧
        vlt "20240101_120000" m.version) ∧
      (∀ m ∈ rb, m.version ≠ "20240101_120000") ∧
      List.Sorted (fun a b => vle b a) (rb.map Migration.version) ∧
      migrate_down (fun _ => true) true
          [("20240101_120000_a", "A1\n-- DOWN\nuA"), ("20240102_120000_b", "B2\n-- DOWN\nuB"),
            ("20240103_120000_c", "C3\n-- DOWN\nuC")] "20240101_120000"
          ⟨true, [("20240101_120000", "A"), ("20240102_120000", "B"),
            ("20240103_120000", "C")], []⟩ =
        runRollback (fun _ => true) rb
          ⟨true, [("20240101_120000", "A"), ("20240102_120000", "B"),
            ("20240103_120000", "C")], []⟩ ∧
      ((migrate_down (fun _ => true) true
          [("20240101_120000_a", "A1\n-- DOWN\nuA"), ("20240102_120000_b", "B2\n-- DOWN\nuB"),
            ("20240103_120000_c", "C3\n-- DOWN\nuC")] "20240101_120000"
          ⟨true, [("20240101_120000", "A"), ("20240102_120000", "B"),
            ("20240103_120000", "C")], []⟩).2 = none →
        ∀ r, r ∈ (migrate_down (fun _ => true) true
          [("20240101_120000_a", "A1\n-- DOWN\nuA"), ("20240102_120000_b", "B2\n-- DOWN\nuB"),
            ("20240103_120000_c", "C3\n-- DOWN\nuC")] "20240101_120000"
          ⟨true, [("20240101_120000", "A"), ("20240102_120000", "B"),
            ("20240103_120000", "C")], []⟩).1.ledger ↔
          r ∈ ([("20240101_120000", "A"), ("20240102_120000", "B"),
            ("20240103_120000", "C")] : List (String × String)) ∧
          r.1 ∉ rb.map Migration.version) :=
  migrate_down_spec (fun _ => true) true
    [("20240101_120000_a", "A1\n-- DOWN\nuA"), ("20240102_120000_b", "B2\n-- DOWN\nuB"),
      ("20240103_120000_c", "C3\n-- DOWN\nuC")] "20240101_120000"
    ⟨true, [("20240101_120000", "A"), ("20240102_120000", "B"),
      ("20240103_120000", "C")], []⟩ rfl

/-- Claim C4: rolling back a migration with empty `down_sql` fails with the
distinct no-rollback-SQL error — distinguishable from an execution
failure — independently of the executor (it is raised before any SQL is
executed), aborts the rollback run at that point leaving the state (hence
that migration's ledger row) unchanged, and inside `migrate_down` the run
stops there with the state reached by the previously rolled-back
migrations. -/
theorem rollback_no_down_sql_spec (m : Migration) (hm : m.down_sql = "") :
    (∀ execOk s, rollback_migration execOk m s =
      Except.error (MigErr.noRollbackSQL m.version)) ∧
    (∀ execOk s rest, runRollback execOk (m :: rest) s =
      (s, some (MigErr.noRollbackSQL m.version))) ∧
    (∀ v w, MigErr.noRollbackSQL v ≠ MigErr.execFailure w) ∧
    (∀ execOk fetchOk files target s p rest s2,
      execOk createTableSQL = true →
      rollbackFor (get_applied_migrations fetchOk { s with ledgerTable := true })
        (load_migrations_from_directory files) target = p ++ m :: rest →
      runRollback execOk p { s with ledgerTable := true } = (s2, none) →
      migrate_down execOk fetchOk files target s =
        (s2, some (MigErr.noRollbackSQL m.version))) := by
  have herr : ∀ (execOk : String → Bool) s, rollback_migration execOk m s =
      Except.error (MigErr.noRollbackSQL m.version) := by
    intro execOk s
    unfold rollback_migration
    rw [if_pos hm]
  have hrunerr : ∀ (execOk : String → Bool) s rest, runRollback execOk (m :: rest) s =
      (s, some (MigErr.noRollbackSQL m.version)) := by
    intro execOk s rest
    rw [runRollback, herr]
  refine ⟨herr, hrunerr, fun v w h => MigErr.noConfusion h, ?_⟩
  intro execOk fetchOk files target s p rest s2 hinit hsplit hp
  have hrun : migrate_down execOk fetchOk files target s =
      runRollback execOk (p ++ m :: rest) { s with ledgerTable := true } := by
    unfold migrate_down initialize_migration_table
    rw [hinit, ← hsplit]
    rfl
  rw [hrun, runRollback_append hp, hrunerr]

theorem rollback_no_down_sql_spec_witness :
    rollback_migration (fun _ => true) ⟨"20240101_120000", "A", "A1", ""⟩
      ⟨true, [("20240101_120000", "A")], []⟩ =
      Except.error (MigErr.noRollbackSQL "20240101_120000") :=
  (rollback_no_down_sql_spec ⟨"20240101_120000", "A", "A1", ""⟩ rfl).1
    (fun _ => true) ⟨true, [("20240101_120000", "A")], []⟩

/-! ### The create/load round trip -/

theorem no_marker_in_glued (u d : List Char) (hu : ¬ downMarker.data <:+: u) :
    ∀ j, j < u.length + 2 →
      downMarker.data.isPrefixOf
        ((u ++ '\n' :: '\n' :: (downMarker.data ++ d)).drop j) = false := by
  intro j hj
  by_contra hcon
  rw [Bool.not_eq_false] at hcon
  obtain ⟨t, ht⟩ := List.isPrefixOf_iff_prefix.mp hcon
  have hlen7 : downMarker.data.length = 7 := by decide
  have hnomem : ('\n' : Char) ∉ downMarker.data := by decide
  have hk : ∀ k, k < 7 →
      (u ++ '\n' :: '\n' :: (downMarker.data ++ d))[j + k]? = downMarker.data[k]? := by
    intro k hk7
    rw [← List.getElem?_drop, ← ht, List.getElem?_append_left (by rw [hlen7]; exact hk7)]
  have hnl : ∀ i, i < 2 →
      (u ++ '\n' :: '\n' :: (downMarker.data ++ d))[u.length + i]? = some '\n' := by
    intro i hi
    rw [List.getElem?_append_right (Nat.le_add_right _ _), Nat.add_sub_cancel_left]
    interval_cases i <;> rfl
  by_cases hA : j + 7 ≤ u.length
  · refine hu ?_
    have hdrop : (u ++ '\n' :: '\n' :: (downMarker.data ++ d)).drop j =
        u.drop j ++ '\n' :: '\n' :: (downMarker.data ++ d) := by
      rw [List.drop_append_eq_append_drop, Nat.sub_eq_zero_of_le (by omega),
        List.drop_zero]
    have hpre : downMarker.data <+: u.drop j := by
      rw [List.prefix_iff_eq_take, hlen7]
      have h1 : ((u ++ '\n' :: '\n' :: (downMarker.data ++ d)).drop j).take 7 =
          downMarker.data := by
        rw [← ht, List.take_append_of_le_length (le_of_eq hlen7.symm), ← hlen7,
          List.take_length]
      have h2 : ((u ++ '\n' :: '\n' :: (downMarker.data ++ d)).drop j).take 7 =
          (u.drop j).take 7 := by
        rw [hdrop, List.take_append_of_le_length (by rw [List.length_drop]; omega)]
      rw [← h1, h2]
    obtain ⟨t2, ht2⟩ := hpre
    exact ⟨u.take j, t2, by rw [List.append_assoc, ht2, List.take_append_drop]⟩
  · by_cases hB : j ≤ u.length
    · have hk2 := hk (u.length - j) (by omega)
      rw [show j + (u.length - j) = u.length from by omega] at hk2
      have hthis := hnl 0 (by omega)
      rw [Nat.add_zero] at hthis
      rw [hthis] at hk2
      exact hnomem (List.getElem?_mem hk2.symm)
    · have hj1 : j = u.length + 1 := by omega
      have hk2 := hk 0 (by omega)
      rw [Nat.add_zero, hj1] at hk2
      have hthis := hnl 1 (by omega)
      rw [hthis] at hk2
      exact hnomem (List.getElem?_mem hk2.symm)

/-- Claim C9 is refuted as stated: the round trip fails when the forward
SQL itself contains the `-- DOWN` marker.  Creating a migration with
`up = "-- DOWN"` and empty `down` writes the marker into the file, so
loading splits at it: the loaded `up_sql` is `""`, not
`"-- DOWN".strip()`. -/
theorem create_load_roundtrip_counterexample :
    ((load_migrations_from_directory
        [create_migration_file "20240101_120000" "x" "-- DOWN" ""]).map
        Migration.up_sql = [""]) ∧
    pyStrip "-- DOWN" = "-- DOWN" ∧ ("" : String) ≠ pyStrip "-- DOWN" := by
  refine ⟨?_, ?_, ?_⟩ <;> decide

/-- Claim C9 (amended): for every name, `up` and `down`, provided the
literal marker `-- DOWN` does not occur inside `up` (and the version
string contains an underscore, as every `YYYYMMDD_HHMMSS` timestamp
does), `create_migration_file` followed by loading the created file
yields exactly one `Migration`, whose `up_sql` equals `up.strip()` and
whose `down_sql` equals `down.strip()`. -/
theorem create_load_roundtrip (now name up down : String)
    (hnow : '_' ∈ now.data)
    (hup : ¬ downMarker.data <:+: up.data) :
    ∃ m, load_migrations_from_directory [create_migration_file now name up down] = [m] ∧
      m.up_sql = pyStrip up ∧ m.down_sql = pyStrip down := by
  have hcount : 2 ≤ (create_migration_file now name up down).1.data.count '_' := by
    show 2 ≤ (now ++ "_" ++ String.mk ((name.data.map Char.toLower).map
      fun c => if c = ' ' then '_' else c)).data.count '_'
    rw [String.data_append, String.data_append, List.count_append, List.count_append]
    have h1 : 0 < now.data.count '_' := List.count_pos_iff.mpr hnow
    have h2 : ("_" : String).data.count '_' = 1 := by decide
    omega
  have hload : ∀ mm, _parse_migration_file (create_migration_file now name up down).1
        (create_migration_file now name up down).2 = some mm →
      load_migrations_from_directory [create_migration_file now name up down] = [mm] := by
    intro mm hmm
    unfold load_migrations_from_directory
    rw [show List.insertionSort fle [create_migration_file now name up down] =
      [create_migration_file now name up down] from rfl]
    simp [List.filterMap_cons, hmm, List.insertionSort, List.orderedInsert]
  obtain ⟨s0, s1, rest, _, _, _, hparse⟩ :=
    parse_some_of_two_underscores (create_migration_file now name up down).2 hcount
  by_cases hdown : down = ""
  · subst hdown
    have hcs : contentSplit (create_migration_file now name up "").2 = (up, "") := by
      show contentSplit up = (up, "")
      exact contentSplit_of_absent hup
    refine ⟨_, hload _ hparse, ?_, ?_⟩
    · show pyStrip (contentSplit (create_migration_file now name up "").2).1 = pyStrip up
      rw [hcs]
    · show pyStrip (contentSplit (create_migration_file now name up "").2).2 = pyStrip ""
      rw [hcs]
  · have hcontent : (create_migration_file now name up down).2 =
        up ++ "\n\n" ++ downMarker ++ "\n" ++ down := by
      show (if down = "" then up else up ++ "\n\n" ++ downMarker ++ "\n" ++ down) = _
      rw [if_neg hdown]
    have hdata : (create_migration_file now name up down).2.data =
        (up.data ++ ['\n', '\n']) ++ downMarker.data ++ ('\n' :: down.data) := by
      rw [hcontent]
      simp [String.data_append, List.append_assoc]
    have hdata2 : (create_migration_file now name up down).2.data =
        up.data ++ '\n' :: '\n' :: (downMarker.data ++ '\n' :: down.data) := by
      rw [hdata]
      simp [List.append_assoc]
    have hmin : ∀ j < (up.data ++ ['\n', '\n']).length,
        downMarker.data.isPrefixOf
          ((create_migration_file now name up down).2.data.drop j) = false := by
      intro j hj
      rw [hdata2]
      refine no_marker_in_glued up.data ('\n' :: down.data) hup j ?_
      simpa using hj
    have hcs := contentSplit_of_first hdata hmin
    refine ⟨_, hload _ hparse, ?_, ?_⟩
    · show pyStrip (contentSplit (create_migration_file now name up down).2).1 = pyStrip up
      rw [hcs]
      show String.mk (stripChars (up.data ++ ['\n', '\n'])) = String.mk (stripChars up.data)
      rw [stripChars_append_ws (by decide)]
    · show pyStrip (contentSplit (create_migration_file now name up down).2).2 = pyStrip down
      rw [hcs]
      show String.mk (stripChars ('\n' :: down.data)) = String.mk (stripChars down.data)
      rw [stripChars_cons_ws (by decide)]

theorem create_load_roundtrip_witness :
    ∃ m, load_migrations_from_directory
        [create_migration_file "20240101_120000" "add users" " CREATE TABLE u; "
          " DROP TABLE u; "] = [m] ∧
      m.up_sql = pyStrip " CREATE TABLE u; " ∧
      m.down_sql = pyStrip " DROP TABLE u; " :=
  create_load_roundtrip "20240101_120000" "add users" " CREATE TABLE u; "
    " DROP TABLE u; " (by decide) (by decide)

end MigrationManager
